import Mathlib

/-!
Verification of the chord-chart core in `ascii_to_latex.py`: the chord
scanner, the line merger `convert_ascii_to_latex`, the section segmenter
`process_section` and the chord-candidacy heuristic `has_chords`.
Strings are embedded as `List Char`; every Python operation used by the
source (strip, rstrip, ljust, split, substring test, list sort) is given
an explicit executable model.
-/

namespace Songs

/-- The characters Python's default `str.strip` / `str.rstrip` remove
(ASCII whitespace: space, tab, newline, carriage return, vertical tab,
form feed). -/
def pyIsSpace (c : Char) : Bool :=
  c == ' ' || c == '\t' || c == '\n' || c == '\r' || c == '\x0b' || c == '\x0c'

/-- The two separator characters the converter itself tests for, as in the
source's `char in [' ', '\t']`. -/
def sp (c : Char) : Bool := c == ' ' || c == '\t'

/-- Python `s.rstrip()`: drop trailing whitespace. -/
def rstrip (l : List Char) : List Char := (l.reverse.dropWhile pyIsSpace).reverse

/-- Python `s.strip()`: drop leading and trailing whitespace. -/
def strip (l : List Char) : List Char := rstrip (l.dropWhile pyIsSpace)

/-- A run of `n` spaces. -/
def spaces (n : Nat) : List Char := List.replicate n ' '

/-- Python `s.ljust(n)`: pad on the right with spaces up to length `n`. -/
def ljust (l : List Char) (n : Nat) : List Char := l ++ spaces (n - l.length)

/-- A string literal as a character list. -/
def chars (s : String) : List Char := s.data

/-- The chord-scanning loop of `convert_ascii_to_latex` (source lines
30-47): walk the chord line once, collecting a `(chord_start,
current_chord)` pair for each maximal run of characters other than space
and tab, flushing a still-open run at end of line.  The source's two loop
variables `current_chord` (a string, initially empty) and `chord_start`
(an int, `-1` while no run is open) are empty/`-1` exactly together, so
the pair is fused into one `Option (Nat × List Char)` here. -/
def scanAux : List Char → Nat → Option (Nat × List Char) → List (Nat × List Char)
  | [], _, none => []
  | [], _, some sc => [sc]
  | c :: rest, pos, cur =>
    if sp c then
      (match cur with | none => [] | some sc => [sc]) ++ scanAux rest (pos + 1) none
    else
      match cur with
      | none => scanAux rest (pos + 1) (some (pos, [c]))
      | some (s, t) => scanAux rest (pos + 1) (some (s, t ++ [c]))

/-- Python `<=` on strings (lexicographic by code point); used only to
model `list.sort()` on `(int, str)` pairs. -/
def lexLe : List Char → List Char → Bool
  | [], _ => true
  | _ :: _, [] => false
  | a :: as, b :: bs => decide (a < b) || (a == b && lexLe as bs)

/-- Ordering of `(position, text)` pairs used by Python's tuple sort. -/
def pairLe (a b : Nat × List Char) : Bool :=
  decide (a.1 < b.1) || (a.1 == b.1 && lexLe a.2 b.2)

def insertPair (a : Nat × List Char) : List (Nat × List Char) → List (Nat × List Char)
  | [] => [a]
  | b :: bs => if pairLe a b then a :: b :: bs else b :: insertPair a bs

/-- Python `chord_positions.sort()` (source line 50): a stable sort under
the tuple order, modelled by insertion sort.  The scanner always hands it
an already strictly position-sorted list (`scanAux_spec`), on which any
sort is the identity (`pySort_eq_self`). -/
def pySort : List (Nat × List Char) → List (Nat × List Char)
  | [] => []
  | a :: as => insertPair a (pySort as)

/-- Source lines 30-50: scan the chord line, then sort the pairs. -/
def chord_positions (l : List Char) : List (Nat × List Char) :=
  pySort (scanAux l 0 none)

/-- The inline chord marker `^{text}` built by the source's f-strings. -/
def marker (t : List Char) : List Char := '^' :: '{' :: (t ++ ['}'])

/-- The merge loop of `convert_ascii_to_latex` (source lines 53-74): walk
the padded lyric line; at each column consume every pending chord whose
start equals the current position (the inner `while ... == pos`), emitting
`' ' ++ ^{chord} ++ ' '` when the column holds a space or tab (and then
suppressing that column's character, the `skip_char` flag) and `^{chord}`
otherwise.  Returns the characters built so far together with the chords
left unconsumed, which the source's final loop (lines 77-80) appends. -/
def mergeWalk : List (Nat × List Char) → List Char → Nat → List Char × List (Nat × List Char)
  | chords, [], _ => ([], chords)
  | chords, c :: rest, pos =>
    let here := chords.takeWhile (fun sc => sc.1 == pos)
    let later := chords.dropWhile (fun sc => sc.1 == pos)
    let emitted := here.flatMap (fun sc =>
      if sp c then ' ' :: (marker sc.2 ++ [' ']) else marker sc.2)
    let keep : List Char := if sp c && !here.isEmpty then [] else [c]
    let tail := mergeWalk later rest (pos + 1)
    (emitted ++ keep ++ tail.1, tail.2)

/-- `convert_ascii_to_latex` (source lines 7-82): blank-input fallback,
right-padding of both lines to a common length, chord scan, merge walk,
trailing append of leftover chords, and a final `rstrip` of the joined
result. -/
def convert_ascii_to_latex (chord_line lyric_line : List Char) : List Char :=
  if strip chord_line = [] ∨ strip lyric_line = [] then lyric_line
  else
    let maxLen := max chord_line.length lyric_line.length
    let cl := ljust chord_line maxLen
    let ll := ljust lyric_line maxLen
    let walked := mergeWalk (chord_positions cl) ll 0
    rstrip (walked.1 ++ walked.2.flatMap (fun sc => ' ' :: marker sc.2))

/-- Accumulator loop for Python `line.split()`. -/
def wordsAux : List Char → List Char → List (List Char)
  | [], cur => if cur.isEmpty then [] else [cur]
  | c :: rest, cur =>
    if pyIsSpace c then (if cur.isEmpty then [] else [cur]) ++ wordsAux rest []
    else wordsAux rest (cur ++ [c])

/-- Python `line.split()`: maximal whitespace-free runs, empty pieces
dropped. -/
def pyWords (l : List Char) : List (List Char) := wordsAux l []

/-- Auxiliary for Python's substring test: does `hay` begin with
`needle`? -/
def startsWith : List Char → List Char → Bool
  | [], _ => true
  | _ :: _, [] => false
  | a :: as, b :: bs => a == b && startsWith as bs

/-- Python `needle in hay`: `needle` occurs contiguously in `hay` (the
empty needle always occurs). -/
def containsSub (needle : List Char) : List Char → Bool
  | [] => needle.isEmpty
  | c :: rest => startsWith needle (c :: rest) || containsSub needle rest

/-- The fourteen fixed trigger strings of `has_chords` (source line 128). -/
def common_chords : List (List Char) :=
  [chars "A", chars "B", chars "C", chars "D", chars "E", chars "F", chars "G",
   chars "Am", chars "Bm", chars "Cm", chars "Dm", chars "Em", chars "Fm", chars "Gm"]

/-- `has_chords` (source lines 123-137): split into words, count the words
containing some trigger as a substring, succeed when the count is positive
and at least half the word count.  The source compares `chord_count >=
len(words) * 0.5` through an exact binary float; `0.5 * n` is exact for
every list length arising here, so the test is modelled by
`words.length ≤ 2 * chord_count`. -/
def has_chords (line : List Char) : Bool :=
  let words := pyWords line
  let chord_count :=
    (words.filter (fun w => common_chords.any (fun ch => containsSub ch w))).length
  decide (0 < chord_count) && decide (words.length ≤ 2 * chord_count)

/-- `process_section` (source lines 84-121).  The source walks an index
`i` over `lines`, advancing by 2 when a chord-candidate line is merged
with the non-blank, non-candidate line under it and by 1 otherwise; the
same walk is expressed by structural recursion on the list of lines. -/
def process_section : List (List Char) → List (List Char)
  | [] => []
  | [l₀] =>
    let line := rstrip l₀
    if line = [] then [[]] else [line]
  | l₀ :: n₀ :: rest =>
    let line := rstrip l₀
    if line = [] then [] :: process_section (n₀ :: rest)
    else
      let next := rstrip n₀
      if has_chords line && !next.isEmpty && !has_chords next then
        convert_ascii_to_latex line next :: process_section rest
      else
        line :: process_section (n₀ :: rest)

-- Sanity checks of the embedding on the source's own example inputs.
example :
    convert_ascii_to_latex (chars "Gm               Bb")
      (chars "   Slow down you crazy child") =
    chars " ^{Gm}   Slow down you ^{Bb}crazy child" := by decide

example : convert_ascii_to_latex (chars "") (chars "Just words") = chars "Just words" := by
  decide

example :
    process_section [chars "G       C", chars "Hello world", chars "", chars "Plain text line"] =
      [convert_ascii_to_latex (chars "G       C") (chars "Hello world"), [],
        chars "Plain text line"] := by decide

example : has_chords (chars "G       C") = true := by decide
example : has_chords (chars "Hello world") = false := by decide
example : chord_positions (chars "  Gm  Bb") = [(2, chars "Gm"), (6, chars "Bb")] := by decide

/-- C1 (counterexample): the claim that a chord landing on a whitespace
column is always rendered with exactly one space on each side of the
marker, never more, fails when the lyric line has consecutive spaces: for
chord line `"  X"` and lyric line `"a  b"` the chord starts at column 2,
which is a space of the lyric line, yet the output `"a  ^{X} b"` has two
spaces immediately before the marker (the emitted bracket space plus the
untouched original space of column 1). -/
theorem C1_counterexample :
    convert_ascii_to_latex (chars "  X") (chars "a  b") = chars "a  ^{X} b" ∧
    containsSub (chars "  ^{X}")
      (convert_ascii_to_latex (chars "  X") (chars "a  b")) = true := by decide

/-- C2 (counterexample): merging the empty chord line with `"a "` returns
`"a "` verbatim, not `"a "` with its trailing whitespace stripped; the
blank-input branch of the source (lines 18-19) returns `lyric_line`
unchanged. -/
theorem C2_counterexample :
    convert_ascii_to_latex (chars "") (chars "a ") = chars "a " ∧
    convert_ascii_to_latex (chars "") (chars "a ") ≠ rstrip (chars "a ") := by decide

/-- C2 (amended): merging with an empty or all-whitespace chord line
returns the lyric line verbatim (no trailing-whitespace stripping). -/
theorem C2_amended (chord lyric : List Char) (h : strip chord = []) :
    convert_ascii_to_latex chord lyric = lyric := by
  unfold convert_ascii_to_latex
  rw [if_pos (Or.inl h)]

theorem C2_amended_witness :
    convert_ascii_to_latex (chars " \t") (chars "x ") = chars "x " :=
  C2_amended (chars " \t") (chars "x ") (by decide)

/-- C3 (counterexample): merging the non-blank chord line `"G"` with the
empty lyric line returns the empty string, not the chord line; the
blank-input branch of the source (lines 18-19) returns its second
argument `lyric_line`, which is empty. -/
theorem C3_counterexample :
    convert_ascii_to_latex (chars "G") (chars "") = chars "" ∧
    convert_ascii_to_latex (chars "G") (chars "") ≠ chars "G" := by decide

/-- C3 (amended): merging any chord line with the empty lyric line
returns the empty lyric line (the chord line is dropped). -/
theorem C3_amended (chord : List Char) :
    convert_ascii_to_latex chord [] = [] := by
  have h : strip ([] : List Char) = [] := rfl
  unfold convert_ascii_to_latex
  rw [if_pos (Or.inr h)]

theorem C3_amended_witness : convert_ascii_to_latex (chars "G") [] = [] :=
  C3_amended (chars "G")

/-- C4 (counterexample): for chord line `"Gm               Bb"` and lyric
line `"   Slow down you crazy child"` the output is
`" ^{Gm}   Slow down you ^{Bb}crazy child"`: it starts with a space, not
with `^{Gm}`, and `^{Gm}` is separated from `Slow` by spaces, so the
marker is not immediately before the word `Slow`. -/
theorem C4_counterexample :
    convert_ascii_to_latex (chars "Gm               Bb")
        (chars "   Slow down you crazy child") =
      chars " ^{Gm}   Slow down you ^{Bb}crazy child" ∧
    startsWith (chars "^{Gm}")
      (convert_ascii_to_latex (chars "Gm               Bb")
        (chars "   Slow down you crazy child")) = false ∧
    containsSub (chars "^{Gm}Slow")
      (convert_ascii_to_latex (chars "Gm               Bb")
        (chars "   Slow down you crazy child")) = false := by decide

/-- C4 (amended): for chord line `"Gm               Bb"` and lyric line
`"   Slow down you crazy child"` the output is exactly
`" ^{Gm}   Slow down you ^{Bb}crazy child"`: `^{Gm}` appears at the start
after a single inserted space and is separated from `Slow` by the marker's
trailing space plus the two remaining original leading spaces, while
`^{Bb}` is inserted immediately before `crazy`. -/
theorem C4_amended :
    convert_ascii_to_latex (chars "Gm               Bb")
        (chars "   Slow down you crazy child") =
      chars " ^{Gm}   Slow down you ^{Bb}crazy child" ∧
    containsSub (chars " ^{Gm}")
      (convert_ascii_to_latex (chars "Gm               Bb")
        (chars "   Slow down you crazy child")) = true ∧
    containsSub (chars "^{Bb}crazy")
      (convert_ascii_to_latex (chars "Gm               Bb")
        (chars "   Slow down you crazy child")) = true := by decide

/-- C6: the segmenter never merges two consecutive chord-candidate lines:
when the line at the cursor and the line after it both classify as chord
candidates, the first is passed through alone (trailing whitespace
trimmed, as the source does for every pass-through) and the cursor
advances by one line. -/
theorem C6 (l₀ n₀ : List Char) (rest : List (List Char))
    (h1 : has_chords (rstrip l₀) = true) (h2 : has_chords (rstrip n₀) = true) :
    process_section (l₀ :: n₀ :: rest) = rstrip l₀ :: process_section (n₀ :: rest) := by
  have hne : rstrip l₀ ≠ [] := by
    intro h
    rw [h] at h1
    exact absurd h1 (by decide)
  simp [process_section, hne, h2]

theorem C6_witness :
    process_section [chars "G", chars "C"] = rstrip (chars "G") :: process_section [chars "C"] :=
  C6 (chars "G") (chars "C") [] (by decide) (by decide)

/-- C8: the embedded core is total by construction (every function above
is a total Lean function over arbitrary character lists), and blank or
empty inputs degrade to pass-through rather than failing: a blank chord or
lyric line makes the merger return the lyric line, a blank chart line is
passed through as an empty output line, and the empty chart yields the
empty output. -/
theorem C8 (chord lyric l₀ : List Char) (rest : List (List Char))
    (h1 : strip chord = [] ∨ strip lyric = []) (h2 : rstrip l₀ = []) :
    convert_ascii_to_latex chord lyric = lyric ∧
    process_section (l₀ :: rest) = [] :: process_section rest ∧
    process_section ([] : List (List Char)) = [] := by
  refine ⟨?_, ?_, rfl⟩
  · unfold convert_ascii_to_latex
    rw [if_pos h1]
  · cases rest with
    | nil => simp [process_section, h2]
    | cons n rest' => simp [process_section, h2]

lemma startsWith_iff : ∀ (n h : List Char), startsWith n h = true ↔ ∃ s, h = n ++ s
  | [], h => by simp [startsWith]
  | a :: as, [] => by simp [startsWith]
  | a :: as, b :: bs => by
      rw [startsWith]
      simp only [Bool.and_eq_true, beq_iff_eq]
      constructor
      · rintro ⟨rfl, hs⟩
        obtain ⟨s, rfl⟩ := (startsWith_iff as bs).1 hs
        exact ⟨s, rfl⟩
      · rintro ⟨s, hs⟩
        injection hs with h1 h2
        subst h1
        exact ⟨rfl, (startsWith_iff as bs).2 ⟨s, h2⟩⟩

/-- Python's substring test agrees with the spec's notion of containing a
substring: some decomposition `hay = p ++ needle ++ s` exists. -/
lemma containsSub_iff : ∀ (n h : List Char), containsSub n h = true ↔ ∃ p s, h = p ++ n ++ s
  | n, [] => by
      rw [containsSub]
      simp only [List.isEmpty_iff]
      constructor
      · rintro rfl
        exact ⟨[], [], rfl⟩
      · rintro ⟨p, s, hs⟩
        rcases List.append_eq_nil.1 hs.symm with ⟨h1, rfl⟩
        rcases List.append_eq_nil.1 h1 with ⟨rfl, rfl⟩
        rfl
  | n, c :: rest => by
      rw [containsSub]
      simp only [Bool.or_eq_true]
      constructor
      · rintro (hs | hc)
        · obtain ⟨s, hs⟩ := (startsWith_iff n (c :: rest)).1 hs
          exact ⟨[], s, by simp [hs]⟩
        · obtain ⟨p, s, hps⟩ := (containsSub_iff n rest).1 hc
          exact ⟨c :: p, s, by simp [hps]⟩
      · rintro ⟨p, s, hps⟩
        cases p with
        | nil =>
          exact Or.inl ((startsWith_iff n (c :: rest)).2 ⟨s, by simpa using hps⟩)
        | cons p0 ps =>
          injection hps with h1 h2
          exact Or.inr ((containsSub_iff n rest).2 ⟨ps, s, h2⟩)

/-- The spec-side word test of the chord-candidacy heuristic: the word
contains one of the fourteen triggers as a case-sensitive contiguous
substring. -/
def TriggerWord (w : List Char) : Prop :=
  ∃ t, t ∈ common_chords ∧ ∃ p s, w = p ++ t ++ s

instance : DecidablePred TriggerWord := fun w =>
  decidable_of_iff ((common_chords.any fun t => containsSub t w) = true)
    (by
      unfold TriggerWord
      simp only [List.any_eq_true]
      constructor
      · rintro ⟨t, ht, hc⟩
        exact ⟨t, ht, (containsSub_iff t w).1 hc⟩
      · rintro ⟨t, ht, hd⟩
        exact ⟨t, ht, (containsSub_iff t w).2 hd⟩)

lemma triggerWord_bool (w : List Char) :
    (common_chords.any fun ch => containsSub ch w) = decide (TriggerWord w) := by
  by_cases h : TriggerWord w
  · rw [decide_eq_true h]
    obtain ⟨t, ht, p, s, rfl⟩ := h
    exact List.any_eq_true.2 ⟨t, ht, (containsSub_iff t _).2 ⟨p, s, rfl⟩⟩
  · rw [decide_eq_false h]
    rw [List.any_eq_false]
    intro t ht hc
    exact h ⟨t, ht, (containsSub_iff t w).1 hc⟩

/-- The number of words of a line that satisfy the spec-side trigger
test. -/
def triggerCount (line : List Char) : Nat :=
  ((pyWords line).filter (fun w => decide (TriggerWord w))).length

/-- C7: the chord-candidacy predicate holds iff the number of
whitespace-separated words containing one of the fourteen fixed triggers
as a case-sensitive substring is positive and at least half the total
word count. -/
theorem C7 (line : List Char) :
    has_chords line = true ↔
      0 < triggerCount line ∧ (pyWords line).length ≤ 2 * triggerCount line := by
  unfold has_chords triggerCount
  simp only [triggerWord_bool, Bool.and_eq_true, decide_eq_true_eq]

theorem C7_witness :
    has_chords (chars "G C") = true ↔
      0 < triggerCount (chars "G C") ∧
        (pyWords (chars "G C")).length ≤ 2 * triggerCount (chars "G C") :=
  C7 (chars "G C")

theorem C8_witness :
    convert_ascii_to_latex (chars " ") (chars "hi") = chars "hi" ∧
    process_section [chars "\t"] = [] :: process_section [] ∧
    process_section ([] : List (List Char)) = [] :=
  C8 (chars " ") (chars "hi") (chars "\t") [] (Or.inl (by decide)) (by decide)

lemma sp_pyIsSpace {c : Char} (h : sp c = true) : pyIsSpace c = true := by
  rw [sp, Bool.or_eq_true] at h
  rcases h with h | h <;> simp [pyIsSpace, h]

lemma spaces_length (n : Nat) : (spaces n).length = n := by
  rw [spaces, List.length_replicate]

lemma ljust_self (l : List Char) : ljust l l.length = l := by
  rw [ljust, Nat.sub_self]
  simp [spaces]

lemma strip_eq_nil_iff (l : List Char) : strip l = [] ↔ ∀ c ∈ l, pyIsSpace c = true := by
  rw [strip, rstrip]
  constructor
  · intro h c hc
    rw [List.reverse_eq_nil_iff, List.dropWhile_eq_nil_iff] at h
    by_cases hcd : c ∈ l.dropWhile pyIsSpace
    · exact h c (List.mem_reverse.2 hcd)
    · have hsplit : c ∈ l.takeWhile pyIsSpace ++ l.dropWhile pyIsSpace := by
        rw [List.takeWhile_append_dropWhile]
        exact hc
      rcases List.mem_append.1 hsplit with h1 | h1
      · exact List.mem_takeWhile_imp h1
      · exact absurd h1 hcd
  · intro h
    have hd : l.dropWhile pyIsSpace = [] :=
      List.dropWhile_eq_nil_iff.2 (fun c hc => h c hc)
    rw [hd]
    rfl

lemma rstrip_decomp (l : List Char) :
    ∃ w, l = rstrip l ++ w ∧ ∀ c ∈ w, pyIsSpace c = true := by
  refine ⟨(l.reverse.takeWhile pyIsSpace).reverse, ?_, ?_⟩
  · rw [rstrip, ← List.reverse_append, List.takeWhile_append_dropWhile]
    exact l.reverse_reverse.symm
  · intro c hc
    rw [List.mem_reverse] at hc
    exact List.mem_takeWhile_imp hc

lemma mergeWalk_nil_chords : ∀ (ll : List Char) (pos : Nat), mergeWalk [] ll pos = (ll, [])
  | [], _ => rfl
  | c :: rest, pos => by
      simp [mergeWalk, mergeWalk_nil_chords rest (pos + 1)]

lemma scanAux_spaces : ∀ (n : Nat) (l : List Char) (pos : Nat),
    scanAux (spaces n ++ l) pos none = scanAux l (pos + n) none
  | 0, l, pos => by simp [spaces]
  | n + 1, l, pos => by
      rw [spaces, List.replicate_succ]
      show scanAux (' ' :: (List.replicate n ' ' ++ l)) pos none = _
      rw [scanAux]
      rw [if_pos (show sp ' ' = true from rfl)]
      rw [show List.replicate n ' ' = spaces n from rfl, scanAux_spaces n l (pos + 1)]
      simp only [List.nil_append]
      congr 1
      omega

lemma scanAux_only_spaces : ∀ (k pos : Nat) (sc : Nat × List Char),
    scanAux (spaces k) pos (some sc) = [sc]
  | 0, pos, sc => rfl
  | k + 1, pos, sc => by
      rw [spaces, List.replicate_succ]
      show scanAux (' ' :: List.replicate k ' ') pos (some sc) = [sc]
      rw [scanAux]
      rw [if_pos (show sp ' ' = true from rfl)]
      have h0 : scanAux (spaces k) (pos + 1) none = [] := by
        have h1 := scanAux_spaces k [] (pos + 1)
        rw [List.append_nil] at h1
        rw [h1]
        rfl
      rw [show List.replicate k ' ' = spaces k from rfl, h0]
      rfl

lemma scanAux_token_spaces : ∀ (t' : List Char) (s : Nat) (t₀ : List Char) (pos k : Nat),
    (∀ c ∈ t', sp c = false) →
    scanAux (t' ++ spaces k) pos (some (s, t₀)) = [(s, t₀ ++ t')]
  | [], s, t₀, pos, k, _ => by
      rw [List.nil_append, scanAux_only_spaces, List.append_nil]
  | c :: t'', s, t₀, pos, k, h => by
      rw [List.cons_append, scanAux]
      rw [if_neg (by rw [h c (by simp)]; simp)]
      rw [scanAux_token_spaces t'' s (t₀ ++ [c]) (pos + 1) k (fun d hd => h d (by simp [hd]))]
      simp

lemma chord_positions_single (p : Nat) (t : List Char) (k : Nat)
    (ht : t ≠ []) (htc : ∀ c ∈ t, sp c = false) :
    chord_positions (spaces p ++ (t ++ spaces k)) = [(p, t)] := by
  rw [chord_positions, scanAux_spaces p (t ++ spaces k) 0]
  cases t with
  | nil => exact absurd rfl ht
  | cons c t' =>
    rw [List.cons_append, scanAux]
    rw [if_neg (by rw [htc c (by simp)]; simp)]
    rw [scanAux_token_spaces t' (0 + p) [c] (0 + p + 1) k (fun d hd => htc d (by simp [hd]))]
    simp [pySort, insertPair]

lemma mergeWalk_single_space : ∀ (ll : List Char) (pos p : Nat) (t : List Char),
    pos ≤ p → (∃ c, ll.get? (p - pos) = some c ∧ sp c = true) →
    mergeWalk [(p, t)] ll pos =
      (ll.take (p - pos) ++ (' ' :: (marker t ++ [' '])) ++ ll.drop (p - pos + 1), [])
  | [], pos, p, t, _, hsp => by
      obtain ⟨c, hc, _⟩ := hsp
      simp at hc
  | c0 :: rest, pos, p, t, hle, hsp => by
      by_cases hpp : p = pos
      · subst hpp
        obtain ⟨c, hc, hspc⟩ := hsp
        rw [Nat.sub_self] at hc
        simp only [List.get?_cons_zero, Option.some.injEq] at hc
        subst hc
        rw [mergeWalk]
        simp only [List.takeWhile_cons, List.dropWhile_cons, beq_self_eq_true, if_true,
          List.takeWhile_nil, List.dropWhile_nil, hspc, mergeWalk_nil_chords]
        simp [Nat.sub_self, hspc, marker]
      · have harith : p - pos = (p - (pos + 1)) + 1 := by omega
        obtain ⟨c, hc, hspc⟩ := hsp
        rw [harith, List.get?_cons_succ] at hc
        have hcond : ¬(((p, t).1 == pos) = true) := by
          simp only [beq_iff_eq]
          exact hpp
        rw [mergeWalk, List.takeWhile_cons, List.dropWhile_cons, if_neg hcond, if_neg hcond]
        rw [mergeWalk_single_space rest (pos + 1) p t (by omega) ⟨c, hc, hspc⟩]
        rw [harith]
        simp [List.take_succ_cons, List.drop_succ_cons]

/-- Exact output of the merger for a chord line carrying a single token
that lands on a whitespace column: the landed column is replaced by a
single space, the marker, and a single space. -/
lemma convert_single_chord_on_space (p : Nat) (t ll : List Char)
    (ht : t ≠ []) (htc : ∀ c ∈ t, pyIsSpace c = false)
    (hll : strip ll ≠ [])
    (hlen : p + t.length ≤ ll.length)
    (hsp : ∃ c, ll.get? p = some c ∧ sp c = true) :
    convert_ascii_to_latex (spaces p ++ t) ll =
      rstrip (ll.take p ++ (' ' :: (marker t ++ [' '])) ++ ll.drop (p + 1)) := by
  have hspt : ∀ c ∈ t, sp c = false := by
    intro c hc
    cases hsc : sp c
    · rfl
    · have h1 := htc c hc
      rw [sp_pyIsSpace hsc] at h1
      exact absurd h1 (by simp)
  have hchord_ne : strip (spaces p ++ t) ≠ [] := by
    intro h
    rw [strip_eq_nil_iff] at h
    cases t with
    | nil => exact ht rfl
    | cons c0 t' =>
      have h1 := h c0 (by simp)
      have h2 := htc c0 (by simp)
      rw [h1] at h2
      exact absurd h2 (by simp)
  have hclen : (spaces p ++ t).length = p + t.length := by
    rw [List.length_append, spaces_length]
  have hm : max (spaces p ++ t).length ll.length = ll.length := by
    rw [hclen]
    exact Nat.max_eq_right hlen
  rw [convert_ascii_to_latex]
  rw [if_neg (not_or.2 ⟨hchord_ne, hll⟩)]
  simp only [hm, ljust_self]
  have hpad : ljust (spaces p ++ t) ll.length
      = spaces p ++ (t ++ spaces (ll.length - (p + t.length))) := by
    rw [ljust, hclen, List.append_assoc]
  rw [hpad, chord_positions_single p t _ ht hspt]
  rw [mergeWalk_single_space ll 0 p t (Nat.zero_le p) (by rw [Nat.sub_zero]; exact hsp)]
  simp

lemma convert_single_chord_on_space_check :
    convert_ascii_to_latex (spaces 1 ++ chars "X") (chars "a b") =
      rstrip ((chars "a b").take 1 ++ (' ' :: (marker (chars "X") ++ [' '])) ++
        (chars "a b").drop 2) :=
  convert_single_chord_on_space 1 (chars "X") (chars "a b") (by decide) (by decide)
    (by decide) (by decide) ⟨' ', by decide, by decide⟩

lemma mergeWalk_filter_sublist :
    ∀ (chords : List (Nat × List Char)) (ll : List Char) (pos : Nat),
      List.Sublist (ll.filter (fun c => !pyIsSpace c)) (mergeWalk chords ll pos).1
  | _, [], _ => by simp [mergeWalk]
  | chords, c :: rest, pos => by
      rw [mergeWalk]
      dsimp only
      have ih :=
        mergeWalk_filter_sublist (chords.dropWhile (fun sc => sc.1 == pos)) rest (pos + 1)
      by_cases hpc : pyIsSpace c = true
      · rw [List.filter_cons_of_neg (by simp [hpc])]
        refine ih.trans ?_
        rw [List.append_assoc]
        exact (List.sublist_append_right _ _).trans (List.sublist_append_right _ _)
      · have hspc : sp c = false := by
          cases h : sp c
          · rfl
          · exact absurd (sp_pyIsSpace h) hpc
        rw [List.filter_cons_of_pos (by simp [hpc])]
        have hkeep : (if sp c && !(chords.takeWhile (fun sc => sc.1 == pos)).isEmpty
            then ([] : List Char) else [c]) = [c] := by
          rw [hspc]
          rfl
        rw [hkeep, List.append_assoc]
        exact (ih.cons₂ c).trans (List.sublist_append_right _ _)

/-- C10: for non-blank chord and lyric lines, every character of the
lyric line other than whitespace appears in the merger's output, in its
original relative order (the walk suppresses only whitespace columns, the
final rstrip removes only trailing whitespace, and markers are inserted
without replacing lyric characters). -/
theorem C10 (chord lyric : List Char)
    (h1 : strip chord ≠ []) (h2 : strip lyric ≠ []) :
    List.Sublist (lyric.filter (fun c => !pyIsSpace c))
      (convert_ascii_to_latex chord lyric) := by
  rw [convert_ascii_to_latex, if_neg (not_or.2 ⟨h1, h2⟩)]
  have hfl : lyric.filter (fun c => !pyIsSpace c) =
      (ljust lyric (max chord.length lyric.length)).filter (fun c => !pyIsSpace c) := by
    rw [ljust, List.filter_append]
    have hz : (spaces (max chord.length lyric.length - lyric.length)).filter
        (fun c => !pyIsSpace c) = [] := by
      rw [List.filter_eq_nil_iff]
      intro c hc
      rw [spaces, List.mem_replicate] at hc
      simp [hc.2, pyIsSpace]
    rw [hz, List.append_nil]
  have hwalk := mergeWalk_filter_sublist
    (chord_positions (ljust chord (max chord.length lyric.length)))
    (ljust lyric (max chord.length lyric.length)) 0
  have hout : List.Sublist (lyric.filter (fun c => !pyIsSpace c))
      ((mergeWalk (chord_positions (ljust chord (max chord.length lyric.length)))
          (ljust lyric (max chord.length lyric.length)) 0).1 ++
        ((mergeWalk (chord_positions (ljust chord (max chord.length lyric.length)))
          (ljust lyric (max chord.length lyric.length)) 0).2.flatMap
            fun sc => ' ' :: marker sc.2)) := by
    rw [hfl]
    exact hwalk.trans (List.sublist_append_left _ _)
  set out := (mergeWalk (chord_positions (ljust chord (max chord.length lyric.length)))
      (ljust lyric (max chord.length lyric.length)) 0).1 ++
    ((mergeWalk (chord_positions (ljust chord (max chord.length lyric.length)))
      (ljust lyric (max chord.length lyric.length)) 0).2.flatMap
        fun sc => ' ' :: marker sc.2) with hdef
  obtain ⟨w, hw, hws⟩ := rstrip_decomp out
  have hself : (lyric.filter (fun c => !pyIsSpace c)).filter (fun c => !pyIsSpace c) =
      lyric.filter (fun c => !pyIsSpace c) := by
    rw [List.filter_eq_self]
    intro a ha
    exact (List.mem_filter.1 ha).2
  have hstep := hout.filter (fun c => !pyIsSpace c)
  rw [hself, hw, List.filter_append] at hstep
  have hwnil : w.filter (fun c => !pyIsSpace c) = [] := by
    rw [List.filter_eq_nil_iff]
    intro c hc
    rw [hws c hc]
    simp
  rw [hwnil, List.append_nil] at hstep
  exact hstep.trans (List.filter_sublist _)

theorem C10_witness :
    List.Sublist ((chars "a b").filter (fun c => !pyIsSpace c))
      (convert_ascii_to_latex (chars "G") (chars "a b")) :=
  C10 (chars "G") (chars "a b") (by decide) (by decide)

/-- `t` is a maximal space/tab-free run of `v` starting at offset `off`:
`v` splits as `pre ++ t ++ suf` where `pre` has length `off` and ends in a
separator (or is empty), `t` is non-empty and separator-free, and `suf`
begins with a separator (or is empty). -/
def TokSpec (v : List Char) (off : Nat) (t : List Char) : Prop :=
  t ≠ [] ∧ (∀ c ∈ t, sp c = false) ∧
  ∃ pre suf, v = pre ++ t ++ suf ∧ pre.length = off ∧
    (pre = [] ∨ ∃ pre' c, pre = pre' ++ [c] ∧ sp c = true) ∧
    (suf = [] ∨ ∃ c suf', suf = c :: suf' ∧ sp c = true)

lemma TokSpec.start {t₀ suf : List Char} (h1 : t₀ ≠ []) (h2 : ∀ c ∈ t₀, sp c = false)
    (h3 : suf = [] ∨ ∃ c suf', suf = c :: suf' ∧ sp c = true) :
    TokSpec (t₀ ++ suf) 0 t₀ :=
  ⟨h1, h2, [], suf, by simp, rfl, Or.inl rfl, h3⟩

lemma TokSpec.shift {v : List Char} {off : Nat} {t : List Char} (t₀ : List Char) (c : Char)
    (hc : sp c = true) (h : TokSpec v off t) :
    TokSpec (t₀ ++ c :: v) (t₀.length + 1 + off) t := by
  obtain ⟨h1, h2, pre, suf, hv, hlen, hleft, hright⟩ := h
  refine ⟨h1, h2, t₀ ++ c :: pre, suf, ?_, ?_, ?_, hright⟩
  · rw [hv]
    simp [List.append_assoc]
  · rw [List.length_append, List.length_cons, hlen]
    omega
  · rcases hleft with rfl | ⟨pre', d, rfl, hd⟩
    · exact Or.inr ⟨t₀, c, rfl, hc⟩
    · exact Or.inr ⟨t₀ ++ c :: pre', d, by simp [List.append_assoc], hd⟩

/-- Offset of the virtual line at which scanning state `cur` begins: the
open token's recorded start if one is open, the current position
otherwise. -/
def stStart (pos : Nat) : Option (Nat × List Char) → Nat
  | none => pos
  | some sc => sc.1

/-- Characters of the currently open token, if any. -/
def stPending : Option (Nat × List Char) → List Char
  | none => []
  | some sc => sc.2

/-- Soundness of the chord scan: under the loop invariant relating the
open token to the position counter, the emitted tokens are strictly
increasing in start column, every emitted token is a maximal separator-free
run of the virtual line (open-token characters followed by the unread
rest), and an all-separator rest with no open token emits nothing. -/
lemma scanAux_spec : ∀ (l : List Char) (pos : Nat) (cur : Option (Nat × List Char)),
    (∀ s t, cur = some (s, t) → t ≠ [] ∧ s + t.length = pos ∧ ∀ c ∈ t, sp c = false) →
    List.Pairwise (fun a b => a.1 < b.1) (scanAux l pos cur) ∧
    (∀ p t, (p, t) ∈ scanAux l pos cur →
      stStart pos cur ≤ p ∧ TokSpec (stPending cur ++ l) (p - stStart pos cur) t) ∧
    ((∀ c ∈ l, sp c = true) → cur = none → scanAux l pos cur = [])
  | [], pos, none, _ => by
      refine ⟨List.Pairwise.nil, ?_, fun _ _ => rfl⟩
      intro p t hpt
      exact absurd hpt (by simp [scanAux])
  | [], pos, some (s, t₀), hinv => by
      obtain ⟨h1, h2, h3⟩ := hinv s t₀ rfl
      refine ⟨List.Pairwise.cons (by simp) List.Pairwise.nil, ?_, ?_⟩
      · intro p t hpt
        have hpt' : (p, t) ∈ ([(s, t₀)] : List (Nat × List Char)) := hpt
        simp only [List.mem_singleton] at hpt'
        rw [Prod.mk.injEq] at hpt'
        obtain ⟨rfl, rfl⟩ := hpt'
        refine ⟨Nat.le_refl _, ?_⟩
        simp only [stStart, stPending, Nat.sub_self]
        simpa using TokSpec.start h1 h3 (Or.inl rfl)
      · intro _ hcur
        exact Option.noConfusion hcur
  | c :: rest, pos, none, _ => by
      by_cases hc : sp c = true
      · obtain ⟨P1, P2, P3⟩ :=
          scanAux_spec rest (pos + 1) none (fun s t h => Option.noConfusion h)
        have heq : scanAux (c :: rest) pos none = scanAux rest (pos + 1) none := by
          rw [scanAux, if_pos hc]
          exact List.nil_append _
        refine ⟨by rw [heq]; exact P1, ?_, ?_⟩
        · intro p t hpt
          rw [heq] at hpt
          obtain ⟨hle, htok⟩ := P2 p t hpt
          simp only [stStart, stPending, List.nil_append] at hle htok ⊢
          have hshift := TokSpec.shift [] c hc htok
          have harith : List.length ([] : List Char) + 1 + (p - (pos + 1)) = p - pos := by
            simp only [List.length_nil]
            omega
          rw [harith] at hshift
          exact ⟨by omega, by simpa using hshift⟩
        · intro hall _
          rw [heq]
          exact P3 (fun d hd => hall d (List.mem_cons_of_mem c hd)) rfl
      · have hcf : sp c = false := Bool.eq_false_iff.2 hc
        have hinv' : ∀ s t, (some (pos, [c]) : Option (Nat × List Char)) = some (s, t) →
            t ≠ [] ∧ s + t.length = pos + 1 ∧ ∀ d ∈ t, sp d = false := by
          intro s t h
          injection h with h'
          rw [Prod.mk.injEq] at h'
          obtain ⟨rfl, rfl⟩ := h'
          refine ⟨by simp, rfl, ?_⟩
          intro d hd
          simp only [List.mem_singleton] at hd
          rw [hd]
          exact hcf
        obtain ⟨P1, P2, P3⟩ := scanAux_spec rest (pos + 1) (some (pos, [c])) hinv'
        have heq : scanAux (c :: rest) pos none
            = scanAux rest (pos + 1) (some (pos, [c])) := by
          rw [scanAux, if_neg (by rw [hcf]; simp)]
        refine ⟨by rw [heq]; exact P1, ?_, ?_⟩
        · intro p t hpt
          rw [heq] at hpt
          obtain ⟨hle, htok⟩ := P2 p t hpt
          simp only [stStart, stPending, List.nil_append, List.singleton_append] at hle htok ⊢
          exact ⟨hle, htok⟩
        · intro hall _
          exact absurd (hall c (by simp)) (by simp [hcf])
  | c :: rest, pos, some (s, t₀), hinv => by
      obtain ⟨h1, h2, h3⟩ := hinv s t₀ rfl
      have ht0pos : 0 < t₀.length := List.length_pos.2 h1
      by_cases hc : sp c = true
      · obtain ⟨P1, P2, P3⟩ :=
          scanAux_spec rest (pos + 1) none (fun s' t' h => Option.noConfusion h)
        have heq : scanAux (c :: rest) pos (some (s, t₀))
            = (s, t₀) :: scanAux rest (pos + 1) none := by
          rw [scanAux, if_pos hc]
          exact List.singleton_append
        refine ⟨?_, ?_, ?_⟩
        · rw [heq, List.pairwise_cons]
          refine ⟨?_, P1⟩
          intro a' ha'
          obtain ⟨p, t⟩ := a'
          have hle := (P2 p t ha').1
          simp only [stStart] at hle
          show s < p
          omega
        · intro p t hpt
          rw [heq] at hpt
          rcases List.mem_cons.1 hpt with hm | hm
          · rw [Prod.mk.injEq] at hm
            obtain ⟨rfl, rfl⟩ := hm
            refine ⟨Nat.le_refl _, ?_⟩
            simp only [stStart, stPending, Nat.sub_self]
            exact TokSpec.start h1 h3 (Or.inr ⟨c, rest, rfl, hc⟩)
          · obtain ⟨hle, htok⟩ := P2 p t hm
            simp only [stStart, stPending, List.nil_append] at hle htok
            have hshift := TokSpec.shift t₀ c hc htok
            have harith : t₀.length + 1 + (p - (pos + 1)) = p - s := by omega
            rw [harith] at hshift
            exact ⟨by simp only [stStart]; omega, by simpa [stStart, stPending] using hshift⟩
        · intro _ hcur
          exact Option.noConfusion hcur
      · have hcf : sp c = false := Bool.eq_false_iff.2 hc
        have hinv' : ∀ s' t', (some (s, t₀ ++ [c]) : Option (Nat × List Char)) = some (s', t') →
            t' ≠ [] ∧ s' + t'.length = pos + 1 ∧ ∀ d ∈ t', sp d = false := by
          intro s' t' h
          injection h with h'
          rw [Prod.mk.injEq] at h'
          obtain ⟨rfl, rfl⟩ := h'
          refine ⟨by simp, ?_, ?_⟩
          · rw [List.length_append]
            simp only [List.length_singleton]
            omega
          · intro d hd
            rcases List.mem_append.1 hd with hd | hd
            · exact h3 d hd
            · simp only [List.mem_singleton] at hd
              rw [hd]
              exact hcf
        obtain ⟨P1, P2, P3⟩ := scanAux_spec rest (pos + 1) (some (s, t₀ ++ [c])) hinv'
        have heq : scanAux (c :: rest) pos (some (s, t₀))
            = scanAux rest (pos + 1) (some (s, t₀ ++ [c])) := by
          rw [scanAux, if_neg (by rw [hcf]; simp)]
        refine ⟨by rw [heq]; exact P1, ?_, ?_⟩
        · intro p t hpt
          rw [heq] at hpt
          obtain ⟨hle, htok⟩ := P2 p t hpt
          simp only [stStart, stPending] at hle htok ⊢
          rw [List.append_assoc] at htok
          simp only [List.singleton_append] at htok
          exact ⟨hle, htok⟩
        · intro hall _
          exact absurd (hall c (by simp)) (by simp [hcf])

lemma pairLe_of_lt {a b : Nat × List Char} (h : a.1 < b.1) : pairLe a b = true := by
  rw [pairLe]
  simp [h]

lemma insertPair_sorted_head (a : Nat × List Char) : ∀ (l : List (Nat × List Char)),
    (∀ b ∈ l, a.1 < b.1) → insertPair a l = a :: l
  | [], _ => rfl
  | b :: bs, h => by
      rw [insertPair, if_pos (pairLe_of_lt (h b (by simp)))]

lemma pySort_eq_self : ∀ {l : List (Nat × List Char)},
    List.Pairwise (fun x y => x.1 < y.1) l → pySort l = l
  | [], _ => rfl
  | a :: as, h => by
      rw [pySort, pySort_eq_self (List.pairwise_cons.1 h).2,
        insertPair_sorted_head a as (List.pairwise_cons.1 h).1]

/-- The scanner contract on a whole line: `chord_positions` (scan + sort)
yields strictly position-sorted maximal runs; a line of separators only
yields nothing. -/
lemma chord_positions_spec (l : List Char) :
    List.Pairwise (fun a b => a.1 < b.1) (chord_positions l) ∧
    (∀ p t, (p, t) ∈ chord_positions l → TokSpec l p t) ∧
    ((∀ c ∈ l, sp c = true) → chord_positions l = []) := by
  obtain ⟨P1, P2, P3⟩ := scanAux_spec l 0 none (fun s t h => Option.noConfusion h)
  have hsort : chord_positions l = scanAux l 0 none := by
    rw [chord_positions, pySort_eq_self P1]
  refine ⟨by rw [hsort]; exact P1, ?_, ?_⟩
  · intro p t hpt
    rw [hsort] at hpt
    have htok := (P2 p t hpt).2
    simpa [stStart, stPending] using htok
  · intro hall
    rw [hsort]
    exact P3 hall rfl

/-- C5: for every chord line, the scanner emits tokens in strictly
increasing start-column order, each token being a non-empty maximal run of
characters other than space and tab, and a line consisting only of spaces
and tabs (in particular the empty line) yields no tokens. -/
theorem C5 (l : List Char) :
    List.Pairwise (fun a b => a.1 < b.1) (chord_positions l) ∧
    (∀ p t, (p, t) ∈ chord_positions l → TokSpec l p t) ∧
    ((∀ c ∈ l, sp c = true) → chord_positions l = []) :=
  chord_positions_spec l

theorem C5_witness : chord_positions (chars " \t ") = [] :=
  (C5 (chars " \t ")).2.2 (by decide)

lemma TokSpec.pos_lt {v : List Char} {off : Nat} {t : List Char} (h : TokSpec v off t) :
    off < v.length := by
  obtain ⟨h1, _, pre, suf, rfl, hlen, _, _⟩ := h
  have hpos : 0 < t.length := List.length_pos.2 h1
  simp only [List.length_append]
  omega

lemma dropWhile_pos_bound : ∀ (chords : List (Nat × List Char)) (pos : Nat),
    List.Pairwise (fun a b => a.1 < b.1) chords →
    (∀ pt ∈ chords, pos ≤ pt.1) →
    ∀ pt ∈ chords.dropWhile (fun sc => sc.1 == pos), pos + 1 ≤ pt.1
  | [], pos, _, _ => by simp
  | c :: cs, pos, hp, hb => by
      by_cases hc : (c.1 == pos) = true
      · rw [List.dropWhile_cons, if_pos hc]
        exact dropWhile_pos_bound cs pos (List.pairwise_cons.1 hp).2
          (fun pt hpt => hb pt (by simp [hpt]))
      · rw [List.dropWhile_cons, if_neg hc]
        intro pt hpt
        rcases List.mem_cons.1 hpt with rfl | hmem
        · have hge := hb pt (by simp)
          have hne : pt.1 ≠ pos := by simpa using hc
          omega
        · have hlt := (List.pairwise_cons.1 hp).1 pt hmem
          have hge := hb c (by simp)
          omega

/-- Every chord whose start column lies inside the walked lyric suffix is
consumed by the merge walk; nothing is left for the trailing append. -/
lemma mergeWalk_consumed : ∀ (ll : List Char) (chords : List (Nat × List Char)) (pos : Nat),
    List.Pairwise (fun a b => a.1 < b.1) chords →
    (∀ pt ∈ chords, pos ≤ pt.1 ∧ pt.1 < pos + ll.length) →
    (mergeWalk chords ll pos).2 = []
  | [], chords, pos, _, hb => by
      cases chords with
      | nil => rfl
      | cons c cs =>
        have hcb := hb c (by simp)
        simp only [List.length_nil, Nat.add_zero] at hcb
        omega
  | c0 :: rest, chords, pos, hp, hb => by
      rw [mergeWalk]
      dsimp only
      refine mergeWalk_consumed rest (chords.dropWhile (fun sc => sc.1 == pos)) (pos + 1)
        (List.Pairwise.sublist (List.dropWhile_sublist _) hp) ?_
      intro pt hpt
      have hmem : pt ∈ chords := (List.dropWhile_sublist _).subset hpt
      have hup := (hb pt hmem).2
      have hlow := dropWhile_pos_bound chords pos hp (fun q hq => (hb q hq).1) pt hpt
      simp only [List.length_cons] at hup
      exact ⟨hlow, by omega⟩

lemma ljust_length (l : List Char) (n : Nat) : (ljust l n).length = max l.length n := by
  rw [ljust, List.length_append, spaces_length]
  omega

/-- Every scanned chord of the padded chord line starts strictly inside
the padded lyric line (both have the common maximum length). -/
lemma chord_positions_lt_len (chord lyric : List Char) :
    ∀ p t, (p, t) ∈ chord_positions (ljust chord (max chord.length lyric.length)) →
      p < (ljust lyric (max chord.length lyric.length)).length := by
  intro p t hpt
  obtain ⟨_, P2, _⟩ := chord_positions_spec (ljust chord (max chord.length lyric.length))
  have hlt := (P2 p t hpt).pos_lt
  rw [ljust_length] at hlt
  rw [ljust_length]
  omega

/-- After padding, the merge walk consumes every scanned chord: nothing
is left over for the trailing-append loop. -/
lemma walk_leftover_nil (chord lyric : List Char) :
    (mergeWalk (chord_positions (ljust chord (max chord.length lyric.length)))
        (ljust lyric (max chord.length lyric.length)) 0).2 = [] := by
  obtain ⟨P1, _, _⟩ := chord_positions_spec (ljust chord (max chord.length lyric.length))
  refine mergeWalk_consumed _ _ _ P1 ?_
  intro pt hpt
  obtain ⟨p, t⟩ := pt
  refine ⟨Nat.zero_le _, ?_⟩
  have hlt := chord_positions_lt_len chord lyric p t hpt
  omega

/-- C9: because both lines are padded to the common maximum length before
scanning, every scanned chord's start column is a valid index of the
padded lyric line, and the merge walk consumes every chord: the trailing
append loop receives an empty list and emits nothing. -/
theorem C9 (chord lyric : List Char)
    (h1 : strip chord ≠ []) (h2 : strip lyric ≠ []) :
    (∀ p t, (p, t) ∈ chord_positions (ljust chord (max chord.length lyric.length)) →
        p < (ljust lyric (max chord.length lyric.length)).length) ∧
    (mergeWalk (chord_positions (ljust chord (max chord.length lyric.length)))
        (ljust lyric (max chord.length lyric.length)) 0).2 = [] :=
  ⟨chord_positions_lt_len chord lyric, walk_leftover_nil chord lyric⟩

theorem C9_witness :
    (mergeWalk (chord_positions (ljust (chars "G") (max (chars "G").length (chars "hi").length)))
        (ljust (chars "hi") (max (chars "G").length (chars "hi").length)) 0).2 = [] :=
  (C9 (chars "G") (chars "hi") (by decide) (by decide)).2

lemma takeWhile_append_mid (q : Nat × List Char → Bool) (x : Nat × List Char)
    (l₂ : List (Nat × List Char)) (hx : q x = false) :
    ∀ l₁ : List (Nat × List Char),
      List.takeWhile q (l₁ ++ x :: l₂) = List.takeWhile q l₁
  | [] => by
      rw [List.nil_append, List.takeWhile_cons, if_neg (by rw [hx]; simp), List.takeWhile_nil]
  | a :: l₁ => by
      rw [List.cons_append, List.takeWhile_cons, List.takeWhile_cons]
      by_cases ha : q a = true
      · rw [if_pos ha, if_pos ha, takeWhile_append_mid q x l₂ hx l₁]
      · rw [if_neg ha, if_neg ha]

lemma dropWhile_append_mid (q : Nat × List Char → Bool) (x : Nat × List Char)
    (l₂ : List (Nat × List Char)) (hx : q x = false) :
    ∀ l₁ : List (Nat × List Char),
      List.dropWhile q (l₁ ++ x :: l₂) = List.dropWhile q l₁ ++ x :: l₂
  | [] => by
      rw [List.nil_append, List.dropWhile_cons, if_neg (by rw [hx]; simp), List.dropWhile_nil,
        List.nil_append]
  | a :: l₁ => by
      rw [List.cons_append, List.dropWhile_cons, List.dropWhile_cons]
      by_cases ha : q a = true
      · rw [if_pos ha, if_pos ha]
        exact dropWhile_append_mid q x l₂ hx l₁
      · rw [if_neg ha, if_neg ha, List.cons_append]

/-- Splitting the merge walk at a chord that lands on a whitespace
column: the output is the walk of the columns before the chord's start
(consuming the earlier chords), then exactly one space, the marker, and
one space in place of the landed column, then the walk of the later
columns (consuming the later chords). -/
lemma mergeWalk_split : ∀ (ll : List Char) (pos : Nat) (cs₁ cs₂ : List (Nat × List Char))
      (p : Nat) (t : List Char),
    List.Pairwise (fun a b => a.1 < b.1) (cs₁ ++ (p, t) :: cs₂) →
    (∀ q ∈ cs₁ ++ (p, t) :: cs₂, pos ≤ q.1) →
    (∃ c, ll.get? (p - pos) = some c ∧ sp c = true) →
    (mergeWalk (cs₁ ++ (p, t) :: cs₂) ll pos).1
      = (mergeWalk cs₁ (ll.take (p - pos)) pos).1 ++
        ((' ' :: (marker t ++ [' '])) ++
          (mergeWalk cs₂ (ll.drop (p - pos + 1)) (p + 1)).1)
  | [], pos, cs₁, cs₂, p, t, _, _, hsp => by
      obtain ⟨c, hc, _⟩ := hsp
      simp at hc
  | c0 :: rest, pos, cs₁, cs₂, p, t, hp, hb, hsp => by
      by_cases hpp : p = pos
      · subst hpp
        have hcs₁ : cs₁ = [] := by
          rw [List.eq_nil_iff_forall_not_mem]
          intro a ha
          have hlt := (List.pairwise_append.1 hp).2.2 a ha (p, t) (by simp)
          have hge := hb a (List.mem_append_left _ ha)
          simp only at hlt
          omega
        subst hcs₁
        obtain ⟨c, hc, hspc⟩ := hsp
        rw [Nat.sub_self] at hc ⊢
        simp only [List.get?_cons_zero, Option.some.injEq] at hc
        subst hc
        have hcs₂ : ∀ b ∈ cs₂, p < b.1 :=
          (List.pairwise_cons.1 (List.pairwise_append.1 hp).2.1).1
        have htake : List.takeWhile (fun sc => sc.1 == p) ((p, t) :: cs₂) = [(p, t)] := by
          rw [List.takeWhile_cons, if_pos (by simp)]
          cases cs₂ with
          | nil => rfl
          | cons b bs =>
            rw [List.takeWhile_cons,
              if_neg (by have := hcs₂ b (by simp); simp only [beq_iff_eq]; omega)]
        have hdrop : List.dropWhile (fun sc => sc.1 == p) ((p, t) :: cs₂) = cs₂ := by
          rw [List.dropWhile_cons, if_pos (by simp)]
          cases cs₂ with
          | nil => rfl
          | cons b bs =>
            rw [List.dropWhile_cons,
              if_neg (by have := hcs₂ b (by simp); simp only [beq_iff_eq]; omega)]
        rw [List.nil_append, mergeWalk]
        dsimp only
        rw [htake, hdrop]
        simp [hspc, mergeWalk, marker]
      · have hge : pos ≤ p := hb (p, t) (List.mem_append_right _ (by simp))
        have hqx : ((fun sc => sc.1 == pos) ((p, t) : Nat × List Char)) = false := by
          show (p == pos) = false
          simp only [beq_eq_false_iff_ne, ne_eq]
          omega
        obtain ⟨c, hc, hspc⟩ := hsp
        have harith : p - pos = (p - (pos + 1)) + 1 := by omega
        rw [harith, List.get?_cons_succ] at hc
        have hp' : List.Pairwise (fun a b => a.1 < b.1)
            (List.dropWhile (fun sc => sc.1 == pos) cs₁ ++ (p, t) :: cs₂) :=
          List.Pairwise.sublist
            (List.Sublist.append (List.dropWhile_sublist _) (List.Sublist.refl _)) hp
        have hb' : ∀ q ∈ List.dropWhile (fun sc => sc.1 == pos) cs₁ ++ (p, t) :: cs₂,
            pos + 1 ≤ q.1 := by
          intro q hq
          rcases List.mem_append.1 hq with hq | hq
          · exact dropWhile_pos_bound cs₁ pos (List.pairwise_append.1 hp).1
              (fun r hr => hb r (List.mem_append_left _ hr)) q hq
          · rcases List.mem_cons.1 hq with rfl | hq
            · omega
            · have hlt := (List.pairwise_cons.1 (List.pairwise_append.1 hp).2.1).1 q hq
              omega
        have IH := mergeWalk_split rest (pos + 1)
          (List.dropWhile (fun sc => sc.1 == pos) cs₁) cs₂ p t hp' hb' ⟨c, hc, hspc⟩
        rw [mergeWalk]
        dsimp only
        rw [takeWhile_append_mid _ _ _ hqx cs₁, dropWhile_append_mid _ _ _ hqx cs₁, IH]
        rw [harith, List.take_succ_cons]
        conv_rhs => rw [mergeWalk]
        dsimp only
        rw [show (p - (pos + 1)) + 1 + 1 = ((p - (pos + 1)) + 1) + 1 from rfl,
          List.drop_succ_cons]
        simp [List.append_assoc]

/-- C1 (amended): whenever a scanned chord token's start column `p` lands
on a whitespace character of the padded lyric line, the merger emits a
single space, the marker `^{text}`, and a single space in place of that
one whitespace column (the walk resumes at column `p + 1`); whitespace at
other columns is preserved in the surrounding walks, so consecutive
original spaces can leave more than one space adjacent to the marker. -/
theorem C1_amended (chord lyric : List Char) (p : Nat) (t : List Char)
    (h1 : strip chord ≠ []) (h2 : strip lyric ≠ [])
    (hmem : (p, t) ∈ chord_positions (ljust chord (max chord.length lyric.length)))
    (hsp : ∃ c, (ljust lyric (max chord.length lyric.length)).get? p = some c ∧
      sp c = true) :
    ∃ cs₁ cs₂,
      chord_positions (ljust chord (max chord.length lyric.length)) = cs₁ ++ (p, t) :: cs₂ ∧
      convert_ascii_to_latex chord lyric =
        rstrip ((mergeWalk cs₁ ((ljust lyric (max chord.length lyric.length)).take p) 0).1 ++
          ((' ' :: (marker t ++ [' '])) ++
            (mergeWalk cs₂ ((ljust lyric (max chord.length lyric.length)).drop (p + 1))
              (p + 1)).1)) := by
  obtain ⟨cs₁, cs₂, hsplit⟩ := List.append_of_mem hmem
  refine ⟨cs₁, cs₂, hsplit, ?_⟩
  rw [convert_ascii_to_latex, if_neg (not_or.2 ⟨h1, h2⟩)]
  have hleft := walk_leftover_nil chord lyric
  obtain ⟨P1, _, _⟩ := chord_positions_spec (ljust chord (max chord.length lyric.length))
  rw [hsplit] at hleft P1
  have hsp' : ∃ c, (ljust lyric (max chord.length lyric.length)).get? (p - 0) = some c ∧
      sp c = true := by
    rw [Nat.sub_zero]
    exact hsp
  have hsplitw := mergeWalk_split (ljust lyric (max chord.length lyric.length)) 0 cs₁ cs₂ p t
    P1 (fun q _ => Nat.zero_le q.1) hsp'
  rw [Nat.sub_zero] at hsplitw
  dsimp only
  rw [hsplit, hleft, hsplitw]
  simp

theorem C1_amended_witness :
    ∃ cs₁ cs₂,
      chord_positions (ljust (chars "  X") (max (chars "  X").length (chars "a  b").length)) =
        cs₁ ++ (2, chars "X") :: cs₂ ∧
      convert_ascii_to_latex (chars "  X") (chars "a  b") =
        rstrip ((mergeWalk cs₁
            ((ljust (chars "a  b") (max (chars "  X").length (chars "a  b").length)).take 2)
            0).1 ++
          ((' ' :: (marker (chars "X") ++ [' '])) ++
            (mergeWalk cs₂
              ((ljust (chars "a  b") (max (chars "  X").length (chars "a  b").length)).drop 3)
              3).1)) :=
  C1_amended (chars "  X") (chars "a  b") 2 (chars "X") (by decide) (by decide) (by decide)
    ⟨' ', by decide, by decide⟩

end Songs
